import Mathlib

/-
Verification of the multi-index partial materialization store
(noria-server/dataflow/src/state/memory_state.rs).

The store (`MemoryState`) owns an ordered collection of single-index keyed
stores (`SingleState`), a tag-to-index map, and a running memory estimate.
`SingleState` itself lives outside the analysed source tree; it is modelled
here from the specification's interface contract (see the doc comments on its
operations).  Machine integers (`u64`, `usize`) are modelled as `Nat`; the one
place the source uses `checked_sub` is modelled with an explicit `≤` test
returning `Option` (panic = `none`), and `saturating_sub` is `Nat`
subtraction, which is itself truncated at zero.  Rust panics and failing
`assert!`s are modelled as `none` results.
-/

namespace Noria

abbrev DataType := Nat
abbrev Row := List DataType
abbrev Timestamp := Nat
abbrev Tag := Nat
abbrev Header := Nat

/-- Modelled from the spec: the fixed per-version bookkeeping overhead
(`VERSIONED_ROW_HEADER_SIZE` from `state/keyed_state.rs`, which is not part of
the analysed sources). Its concrete value is irrelevant to every claim. -/
def VERSIONED_ROW_HEADER_SIZE : Nat := 16

/-- Modelled from the spec: the approximate-size function over row payloads
(`deep_size_of` on `Rc<Vec<DataType>>`).  Any concrete monotone size works for
the accounting claims; we charge a fixed header plus a per-value cost. -/
def deepSizeOf (r : Row) : Nat := 8 + 8 * r.length

/-- Projection of a row onto a key-column set (the key under which a
single-index store files the row). -/
def keyProj (cols : List Nat) (r : Row) : List DataType :=
  cols.map (fun c => r.getD c 0)

/-- Modelled from the spec: one key's slot in a single-index store.  The
version list is kept in version order; position 0 is the base (sentinel)
entry created when the slot is created, and positions 1.. are the stored row
versions.  This base entry is what lets `add_key`'s backfill loop start its
copy at position 1 and still copy every real version (as the repository's own
`memory_state_old_records_new_index` test requires). -/
structure KeyEntry where
  keyval : List DataType
  versions : List (Header × Row)
deriving DecidableEq, Repr

/-- The base (sentinel) version heading every key slot's version list. -/
def sentinelV : Header × Row := (0, [])

/-- Modelled from the spec: the Versioned Index Store collaborator
(`SingleState` from `state/single_state.rs`, outside the analysed sources).
One instance per key-column set; when `isPart` ("partial") is true, a key
absent from `entries` is a hole. -/
structure SingleState where
  key : List Nat
  isPart : Bool
  entries : List KeyEntry
deriving DecidableEq, Repr

def SingleState.new (cols : List Nat) (p : Bool) : SingleState :=
  ⟨cols, p, []⟩

def SingleState.hasKey (st : SingleState) (k : List DataType) : Bool :=
  st.entries.any (fun e => e.keyval == k)

/-- Append one version under key `k`, creating the slot (with its base entry)
if it does not yet exist. -/
def SingleState.appendVersion (st : SingleState) (k : List DataType)
    (v : Header × Row) : SingleState :=
  if st.hasKey k then
    { st with entries := st.entries.map (fun e =>
        if e.keyval == k then { e with versions := e.versions ++ [v] } else e) }
  else
    { st with entries := st.entries ++ [⟨k, [sentinelV, v]⟩] }

/-- Modelled from the spec: `SingleState::insert_row`.  A partial index
rejects (returns `false` for) a row whose key is a hole — this is the hole
discipline the containing store's `process_records` relies on; otherwise the
row is stored as a new version under its key and accepted. -/
def SingleState.insert_row (st : SingleState) (r : Row) (ts : Timestamp) :
    SingleState × Bool :=
  let k := keyProj st.key r
  if st.isPart && !(st.hasKey k) then (st, false)
  else (st.appendVersion k (ts, r), true)

/-- Modelled from the spec: `SingleState::insert_row_with_header`, used only
by `add_key`'s backfill; stores the version with the given header. -/
def SingleState.insert_row_with_header (st : SingleState) (r : Row)
    (h : Header) : SingleState :=
  st.appendVersion (keyProj st.key r) (h, r)

/-- Modelled from the spec: `SingleState::remove_row`.  Removes the versions
matching the given row values under the row's key; reports whether any
matching row was found. -/
def SingleState.remove_row (st : SingleState) (r : Row) : SingleState × Bool :=
  let k := keyProj st.key r
  match st.entries.find? (fun e => e.keyval == k) with
  | none => (st, false)
  | some e =>
    let hit := (e.versions.drop 1).any (fun v => v.2 == r)
    let newVers :=
      match e.versions with
      | [] => ([] : List (Header × Row))
      | v0 :: vs => v0 :: vs.filter (fun v => !(v.2 == r))
    ({ st with entries := st.entries.map (fun e2 =>
        if e2.keyval == k then { e2 with versions := newVers } else e2) }, hit)

/-- Bytes attributable to one key slot: the payload plus per-version header of
every stored (non-base) version. -/
def versionWeight (v : Header × Row) : Nat :=
  deepSizeOf v.2 + VERSIONED_ROW_HEADER_SIZE

def KeyEntry.bytes (e : KeyEntry) : Nat :=
  ((e.versions.drop 1).map versionWeight).sum

/-- Modelled from the spec: `SingleState::mark_filled` — creates an (empty)
slot for the key, making it a non-hole. -/
def SingleState.mark_filled (st : SingleState) (k : List DataType) :
    SingleState :=
  if st.hasKey k then st
  else { st with entries := st.entries ++ [⟨k, [sentinelV]⟩] }

/-- Modelled from the spec: `SingleState::mark_hole` — drops the key's slot
and reports the bytes freed. -/
def SingleState.mark_hole (st : SingleState) (k : List DataType) :
    SingleState × Nat :=
  match st.entries.find? (fun e => e.keyval == k) with
  | none => (st, 0)
  | some e =>
    ({ st with entries := st.entries.filter (fun e2 => !(e2.keyval == k)) },
     e.bytes)

/-- Modelled from the spec: `SingleState::evict_keys` — evicts exactly the
given keys, reporting the total bytes freed. -/
def SingleState.evict_keys (st : SingleState) (ks : List (List DataType)) :
    SingleState × Nat :=
  ks.foldl (fun acc k =>
    let p := acc.1.mark_hole k
    (p.1, acc.2 + p.2)) (st, 0)

/-- Modelled from the spec: `SingleState::evict_random_keys` — evicts up to
`count` keys by the index's own policy (modelled deterministically as the
first `count` slots; the spec keeps the randomized choice injectable), and
reports bytes freed together with the evicted keys. -/
def SingleState.evict_random_keys (st : SingleState) (count : Nat) :
    SingleState × Nat × List (List DataType) :=
  let chosen := st.entries.take count
  ({ st with entries := st.entries.drop count },
   (chosen.map KeyEntry.bytes).sum,
   chosen.map KeyEntry.keyval)

/-- Modelled from the spec: `SingleState::rows` — the number of stored row
versions. -/
def SingleState.rows (st : SingleState) : Nat :=
  (st.entries.map (fun e => (e.versions.drop 1).length)).sum

/-- Modelled from the spec: `SingleState::clear`. -/
def SingleState.clear (st : SingleState) : SingleState :=
  { st with entries := [] }

/-- Modelled from the spec: `SingleState::lookup` — `none` is a miss (a hole,
only possible on a partial index); a fully materialized index answers a
never-seen key with the empty row list. -/
def SingleState.lookup (st : SingleState) (k : List DataType)
    (ts : Option Timestamp) : Option (List Row) :=
  match st.entries.find? (fun e => e.keyval == k) with
  | some e =>
    match ts with
    | none => some ((e.versions.drop 1).map Prod.snd)
    | some t => some (((e.versions.drop 1).filter
        (fun v => decide (v.1 ≤ t))).map Prod.snd)
  | none => if st.isPart then none else some []

/-- The multi-index materialization store, from
`memory_state.rs` (`struct MemoryState`).  The `HashMap<Tag, usize>` is
modelled as an association list with overwrite-on-insert. -/
structure MemoryState where
  state : List SingleState
  by_tag : List (Tag × Nat)
  mem_size : Nat
deriving DecidableEq, Repr

/-- The `Default` store: no indices, no tags, zero estimate. -/
def emptyState : MemoryState := ⟨[], [], 0⟩

/-- Lookup in the tag map (`self.by_tag.get(&tag)`). -/
def byTagGet (m : MemoryState) (t : Tag) : Option Nat :=
  (m.by_tag.find? (fun p => p.1 == t)).map Prod.snd

/-- Overwriting insert into the tag map (`self.by_tag.insert(tag, i)`). -/
def tagInsert (bt : List (Tag × Nat)) (t : Tag) (i : Nat) : List (Tag × Nat) :=
  (t, i) :: bt.filter (fun p => !(p.1 == t))

/-- Iterator `position`: index of the first element satisfying `p`. -/
def listPosition (p : α → Bool) : List α → Option Nat
  | [] => none
  | a :: l => if p a then some 0 else (listPosition p l).map (· + 1)

/-- From `MemoryState::state_for`: position of the index keyed on `cols`. -/
def MemoryState.state_for (m : MemoryState) (cols : List Nat) : Option Nat :=
  listPosition (fun s => s.key == cols) m.state

/-- From `State::add_key for MemoryState`.  Returns `none` when the
`assert!(!old[0].partial())` fires, i.e. when a fully materialized index must
be backfilled while the first existing index is partial. -/
def MemoryState.add_key (m : MemoryState) (cols : List Nat)
    (po : Option (List Tag)) : Option MemoryState :=
  match m.state_for cols with
  | some i =>
    some { m with by_tag :=
      (po.getD []).foldl (fun bt t => tagInsert bt t i) m.by_tag }
  | none =>
    let i := m.state.length
    let bt := (po.getD []).foldl (fun bt t => tagInsert bt t i) m.by_tag
    match po with
    | some _ =>
      some { m with by_tag := bt,
                    state := m.state ++ [SingleState.new cols true] }
    | none =>
      match m.state with
      | [] => some { m with by_tag := bt,
                            state := [SingleState.new cols false] }
      | first :: _ =>
        if first.isPart then none
        else
          let newIdx := first.entries.foldl
            (fun acc e => (e.versions.drop 1).foldl
              (fun a v => a.insert_row_with_header v.2 v.1) acc)
            (SingleState.new cols false)
          some { m with by_tag := bt, state := m.state ++ [newIdx] }

/-- From `MemoryState::insert`.  An unknown tag reports a hit without storing
anything; a known tag charges the row's payload plus the per-version header
and inserts into the tagged index only; the untagged path fans out to every
index and charges the payload once iff any index accepted.  A tag mapped out
of range (impossible in reachable stores, see the tag invariant) is modelled
as a rejected insert. -/
def MemoryState.insert (m : MemoryState) (r : Row) (ptag : Option Tag)
    (ts : Timestamp) : MemoryState × Bool :=
  match ptag with
  | some tag =>
    match byTagGet m tag with
    | none => (m, true)
    | some i =>
      let mem' := m.mem_size + deepSizeOf r + VERSIONED_ROW_HEADER_SIZE
      match m.state.get? i with
      | some st =>
        let p := st.insert_row r ts
        ({ m with state := m.state.set i p.1, mem_size := mem' }, p.2)
      | none => ({ m with mem_size := mem' }, false)
  | none =>
    let results := m.state.map (fun st => st.insert_row r ts)
    let hitAny := results.any Prod.snd
    ({ m with state := results.map Prod.fst,
              mem_size := if hitAny then m.mem_size + deepSizeOf r
                          else m.mem_size }, hitAny)

/-- From `MemoryState::remove`: attempts removal from every index, reporting
whether any index found a matching row; the memory estimate is untouched. -/
def MemoryState.remove (m : MemoryState) (r : Row) (_ts : Timestamp) :
    MemoryState × Bool :=
  let results := m.state.map (fun st => st.remove_row r)
  ({ m with state := results.map Prod.fst }, results.any Prod.snd)

/-- One record of a batch (`Record`). -/
inductive Record where
  | positive (r : Row)
  | negative (r : Row)
deriving DecidableEq, Repr

/-- From `State::is_partial for MemoryState` (the name `isPart` is used
throughout for the source's `partial` flag). -/
def MemoryState.isPart (m : MemoryState) : Bool :=
  m.state.any SingleState.isPart

/-- The per-record body of `process_records`' `retain` closure. -/
def MemoryState.applyRec (m : MemoryState) (ptag : Option Tag)
    (ts : Timestamp) : Record → MemoryState × Bool
  | .positive r => m.insert r ptag ts
  | .negative r => m.remove r ts

/-- The stateful in-order filter performed by `records.retain(..)` on the
partial branch of `process_records`. -/
def processLoop (ptag : Option Tag) (ts : Timestamp) :
    MemoryState → List Record → MemoryState × List Record
  | m, [] => (m, [])
  | m, rec :: rest =>
    let p := m.applyRec ptag ts rec
    let q := processLoop ptag ts p.1 rest
    (q.1, if p.2 then rec :: q.2 else q.2)

/-- From `State::process_records for MemoryState`: on a partial store the
batch is filtered in place by whether each record was applied; on a fully
materialized store every record is applied (with no tag) and the batch is
left unchanged. -/
def MemoryState.process_records (m : MemoryState) (recs : List Record)
    (ts : Timestamp) (ptag : Option Tag) : MemoryState × List Record :=
  if m.isPart then processLoop ptag ts m recs
  else (recs.foldl (fun acc rec => (acc.applyRec none ts rec).1) m, recs)

/-- From `State::mark_filled for MemoryState`.  `self.by_tag[&tag]` panics on
an unregistered tag, modelled as `none`. -/
def MemoryState.mark_filled (m : MemoryState) (k : List DataType)
    (tag : Tag) : Option MemoryState :=
  match byTagGet m tag with
  | none => none
  | some index =>
    match m.state.get? index with
    | none => none
    | some st =>
      some { m with state := m.state.set index (st.mark_filled k) }

/-- From `State::mark_hole for MemoryState`: decrements the estimate by
exactly the reported freed bytes via `checked_sub(..).unwrap()` — `none`
models the panic on underflow, and also the tag-map panic on an unregistered
tag. -/
def MemoryState.mark_hole (m : MemoryState) (k : List DataType)
    (tag : Tag) : Option MemoryState :=
  match byTagGet m tag with
  | none => none
  | some index =>
    match m.state.get? index with
    | none => none
    | some st =>
      let p := st.mark_hole k
      if p.2 ≤ m.mem_size then
        some { m with state := m.state.set index p.1,
                      mem_size := m.mem_size - p.2 }
      else none

/-- From `State::lookup_at for MemoryState`; the outer `Option` is the
`expect` on an unindexed column set (a contract violation), the inner one the
index's hit/miss verdict. -/
def MemoryState.lookup_at (m : MemoryState) (cols : List Nat)
    (k : List DataType) (ts : Option Timestamp) : Option (Option (List Row)) :=
  (m.state_for cols).bind (fun i => (m.state.get? i).map
    (fun st => st.lookup k ts))

/-- From `State::lookup for MemoryState`. -/
def MemoryState.lookup (m : MemoryState) (cols : List Nat)
    (k : List DataType) : Option (Option (List Row)) :=
  m.lookup_at cols k none

/-- From `State::keys for MemoryState`. -/
def MemoryState.keys (m : MemoryState) : List (List Nat) :=
  m.state.map SingleState.key

/-- From `State::rows for MemoryState`. -/
def MemoryState.rows (m : MemoryState) : Nat :=
  (m.state.map SingleState.rows).sum

/-- From `State::clear for MemoryState`. -/
def MemoryState.clear (m : MemoryState) : MemoryState :=
  { m with state := m.state.map SingleState.clear, mem_size := 0 }

/-- From `State::evict_random_keys for MemoryState`; the thread rng's index
draw is made an explicit argument (taken modulo the number of indices), and
an empty store — where `gen_range(0, 0)` panics — yields `none`.  The
estimate shrinks by `saturating_sub`, i.e. truncated `Nat` subtraction. -/
def MemoryState.evict_random_keys (m : MemoryState) (count : Nat)
    (rngIdx : Nat) :
    MemoryState × Option (List Nat × List (List DataType) × Nat) :=
  if m.state.isEmpty then (m, none)
  else
    let index := rngIdx % m.state.length
    match m.state.get? index with
    | none => (m, none)
    | some st =>
      let p := st.evict_random_keys count
      ({ m with state := m.state.set index p.1,
                mem_size := m.mem_size - p.2.1 },
       some (p.1.key, p.2.2, p.2.1))

/-- From `State::evict_keys for MemoryState`: an unregistered tag is a
legitimate no-op (`none` payload, store untouched); a known tag evicts the
given keys from its index and shrinks the estimate by `saturating_sub`. -/
def MemoryState.evict_keys (m : MemoryState) (tag : Tag)
    (ks : List (List DataType)) : MemoryState × Option (List Nat × Nat) :=
  match byTagGet m tag with
  | none => (m, none)
  | some index =>
    match m.state.get? index with
    | none => (m, none)
    | some st =>
      let p := st.evict_keys ks
      ({ m with state := m.state.set index p.1,
                mem_size := m.mem_size - p.2 },
       some (p.1.key, p.2))

/-! Observation functions used only to state theorems. -/

/-- All stored (non-base) versions of a single-index store, in enumeration
order: entries in slot order, versions in version order. -/
def flatVersions (st : SingleState) : List (Header × Row) :=
  (st.entries.map (fun e => e.versions.drop 1)).flatten

/-- The stored (non-base) versions filed under one key value. -/
def versionsUnder (st : SingleState) (k : List DataType) :
    List (Header × Row) :=
  match st.entries.find? (fun e => e.keyval == k) with
  | some e => e.versions.drop 1
  | none => []

/-- A sequence of tagged inserts under one tag, folded left to right. -/
def insertsFold (m : MemoryState) (t : Tag) (ts : Timestamp)
    (rs : List Row) : MemoryState :=
  rs.foldl (fun acc r => (acc.insert r (some t) ts).1) m

/-! The reachable-state invariants. -/

/-- Every registered tag points strictly below the index count. -/
def TagsOk (m : MemoryState) : Prop :=
  ∀ p ∈ m.by_tag, p.2 < m.state.length

/-- If any fully materialized index exists, the first index is fully
materialized (`add_key`'s backfill assertion enforces this on creation). -/
def FirstFullOk (m : MemoryState) : Prop :=
  ∀ st ∈ m.state, st.isPart = false →
    ∀ f fs, m.state = f :: fs → f.isPart = false

/-- Stores reachable from the default store through the public operations
(fallible operations contribute only their non-panicking outcomes). -/
inductive Reachable : MemoryState → Prop where
  | init : Reachable emptyState
  | add_key {m m' cols po} : Reachable m → m.add_key cols po = some m' →
      Reachable m'
  | proc {m recs ts ptag} : Reachable m →
      Reachable (m.process_records recs ts ptag).1
  | mark_filled {m m' k t} : Reachable m → m.mark_filled k t = some m' →
      Reachable m'
  | mark_hole {m m' k t} : Reachable m → m.mark_hole k t = some m' →
      Reachable m'
  | evict_keys {m t ks} : Reachable m → Reachable (m.evict_keys t ks).1
  | evict_random {m count rngIdx} : Reachable m →
      Reachable (m.evict_random_keys count rngIdx).1
  | clear {m} : Reachable m → Reachable m.clear

/-! Concrete stores used by witness and counterexample theorems. -/

/-- A single fully materialized empty index on column 0. -/
def wIdxFull : SingleState := SingleState.new [0] false

/-- A store with one full index and no registered tags. -/
def wit3 : MemoryState := ⟨[wIdxFull], [], 0⟩

/-- A store with one full index, tag 3 registered, estimate 7. -/
def wit6 : MemoryState := ⟨[wIdxFull], [(3, 0)], 7⟩

/-- A partial index on column 0 whose key [1] is filled and empty. -/
def wSt4 : SingleState := ⟨[0], true, [⟨[1], [sentinelV]⟩]⟩

/-- A store with one partial index (key [1] filled), tag 5 registered. -/
def wit4 : MemoryState := ⟨[wSt4], [(5, 0)], 0⟩

/-- A partial index on column 0 holding one version under key [1]. -/
def wSt5 : SingleState := ⟨[0], true, [⟨[1], [sentinelV, (0, [1, 2])]⟩]⟩

/-- A store whose estimate (3) is smaller than its index's stored bytes. -/
def wit5 : MemoryState := ⟨[wSt5], [(5, 0)], 3⟩

/-- A partial store with a hole everywhere and tag 5 registered. -/
def wCex1 : MemoryState := ⟨[⟨[0], true, []⟩], [(5, 0)], 0⟩

/-- A full index on column 0 holding two versions of rows under key [10]. -/
def wFirstC2 : SingleState :=
  ⟨[0], false, [⟨[10], [sentinelV, (1, [10, 3]), (2, [10, 4])]⟩]⟩

/-- A store whose only index is `wFirstC2`. -/
def witC2 : MemoryState := ⟨[wFirstC2], [], 0⟩

/-- The store obtained from the default store by `add_key([0], None)`. -/
def witC7 : MemoryState := ⟨[SingleState.new [0] false], [], 0⟩

/-- The store obtained from the default store by `add_key([0], Some [7])`. -/
def witC10 : MemoryState := ⟨[SingleState.new [0] true], [(7, 0)], 0⟩

/-- A record batch: an insert landing on the filled key [1], a delete that
matches nothing, and an insert landing on a hole. -/
def wRecs : List Record :=
  [.positive [1, 9], .negative [2, 2], .positive [5, 5]]

/-! Helper lemmas. -/

theorem get?_some_lt {α} {l : List α} {i : Nat} {a : α}
    (h : l.get? i = some a) : i < l.length :=
  (List.get?_eq_some.mp h).1

theorem get?_set_self {α} {l : List α} {i : Nat} {a b : α}
    (h : l.get? i = some b) : (l.set i a).get? i = some a := by
  rw [List.get?_set_eq, h]; rfl

theorem find?_map_pres {α} {p : α → Bool} (f : α → α)
    (hf : ∀ e, p (f e) = p e) :
    ∀ l : List α, (l.map f).find? p = (l.find? p).map f := by
  intro l
  induction l with
  | nil => rfl
  | cons a l ih =>
    by_cases h : p a = true
    · simp [List.find?_cons, hf, h]
    · simp only [Bool.not_eq_true] at h
      simp [List.find?_cons, hf, h, ih]

theorem listPosition_none {α} {p : α → Bool} :
    ∀ {l : List α}, listPosition p l = none ↔ ∀ x ∈ l, p x = false := by
  intro l
  induction l with
  | nil => simp [listPosition]
  | cons a l ih =>
    by_cases h : p a = true
    · simp [listPosition, h]
    · simp only [Bool.not_eq_true] at h
      simp [listPosition, h, ih]

theorem listPosition_some {α} {p : α → Bool} :
    ∀ {l : List α} {i : Nat}, listPosition p l = some i →
      ∃ a, l.get? i = some a ∧ p a = true := by
  intro l
  induction l with
  | nil => intro i h; simp [listPosition] at h
  | cons a l ih =>
    intro i h
    by_cases hp : p a = true
    · simp [listPosition, hp] at h
      exact h ▸ ⟨a, rfl, hp⟩
    · simp only [Bool.not_eq_true] at hp
      simp [listPosition, hp] at h
      obtain ⟨j, hj, rfl⟩ := h
      obtain ⟨b, hb, hpb⟩ := ih hj
      exact ⟨b, hb, hpb⟩

theorem listPosition_append_last {α} {p : α → Bool} {l : List α} {x : α}
    (hl : ∀ y ∈ l, p y = false) (hx : p x = true) :
    listPosition p (l ++ [x]) = some l.length := by
  induction l with
  | nil => simp [listPosition, hx]
  | cons a l ih =>
    have ha : p a = false := hl a (by simp)
    have := ih (fun y hy => hl y (by simp [hy]))
    simp [listPosition, ha, this]

/-! Claim theorems. -/

/-- Claim C6: an insert carrying a replay tag that is not registered in the
tag map reports a hit (`true`) and leaves the store — every index's contents
and the memory estimate — completely unchanged. -/
theorem claim6_insert_unknown_tag (m : MemoryState) (r : Row) (t : Tag)
    (ts : Timestamp) (h : byTagGet m t = none) :
    m.insert r (some t) ts = (m, true) := by
  simp [MemoryState.insert, h]

theorem claim6_witness :
    byTagGet wit6 5 = none ∧
      wit6.insert [1, 2] (some 5) 0 = (wit6, true) :=
  ⟨by decide, claim6_insert_unknown_tag wit6 [1, 2] 5 0 (by decide)⟩

/-- Claim C9: `remove` never changes the memory estimate, whether or not any
index found and removed a matching row. -/
theorem claim9_remove_keeps_estimate (m : MemoryState) (r : Row)
    (ts : Timestamp) : (m.remove r ts).1.mem_size = m.mem_size := rfl

/-- Claim C8: after `clear`, every index's row count is zero and the memory
estimate is zero, while the registered key-column sets and the tag-to-index
mappings are exactly what they were. -/
theorem claim8_clear_resets (m : MemoryState) :
    m.clear.state.all (fun st => st.rows == 0) = true ∧
      m.clear.mem_size = 0 ∧
      m.clear.keys = m.keys ∧
      m.clear.by_tag = m.by_tag := by
  refine ⟨?_, rfl, ?_, rfl⟩
  · simp [MemoryState.clear, SingleState.clear, SingleState.rows]
  · simp [MemoryState.clear, MemoryState.keys, SingleState.clear]

/-- Claim C3 counterexample: on a store with one index and no registered
tags, `mark_filled` and `mark_hole` with the unknown tag 5 panic (the
`self.by_tag[&tag]` map indexing fails), modelled as `none` — they are not
silent no-ops. -/
theorem claim3_counterexample :
    byTagGet wit3 5 = none ∧ wit3.state ≠ [] ∧
      wit3.mark_filled [1] 5 = none ∧ wit3.mark_hole [1] 5 = none := by
  decide

/-- Claim C3 (amended): `mark_filled` and `mark_hole` with a tag that has
never been registered panic on the tag-map lookup (modelled as `none`)
instead of silently succeeding. -/
theorem claim3_mark_unknown_tag_panics (m : MemoryState) (k : List DataType)
    (t : Tag) (h : byTagGet m t = none) :
    m.mark_filled k t = none ∧ m.mark_hole k t = none := by
  constructor
  · simp [MemoryState.mark_filled, h]
  · simp [MemoryState.mark_hole, h]

theorem claim3_witness :
    byTagGet wit3 6 = none ∧
      (wit3.mark_filled [2] 6 = none ∧ wit3.mark_hole [2] 6 = none) :=
  ⟨by decide, claim3_mark_unknown_tag_panics wit3 [2] 6 (by decide)⟩

/-- Claim C5: `evict_keys` under a registered tag and `evict_random_keys`
always succeed and shrink the memory estimate by the index's reported freed
bytes with saturating subtraction: the new estimate is the truncated
difference, and when the freed bytes reach or exceed the estimate it becomes
exactly zero. -/
theorem claim5_evict_saturates :
    (∀ (m : MemoryState) (t : Tag) (ks : List (List DataType)) (i : Nat)
       (st : SingleState),
       byTagGet m t = some i → m.state.get? i = some st →
       (m.evict_keys t ks).2.isSome = true ∧
       (m.evict_keys t ks).1.mem_size = m.mem_size - (st.evict_keys ks).2 ∧
       (m.mem_size ≤ (st.evict_keys ks).2 →
         (m.evict_keys t ks).1.mem_size = 0)) ∧
    (∀ (m : MemoryState) (count rngIdx : Nat) (st : SingleState),
       m.state.get? (rngIdx % m.state.length) = some st →
       (m.evict_random_keys count rngIdx).2.isSome = true ∧
       (m.evict_random_keys count rngIdx).1.mem_size =
         m.mem_size - (st.evict_random_keys count).2.1 ∧
       (m.mem_size ≤ (st.evict_random_keys count).2.1 →
         (m.evict_random_keys count rngIdx).1.mem_size = 0)) := by
  constructor
  · intro m t ks i st h1 h2
    have h2' : m.state[i]? = some st := by
      rw [← List.get?_eq_getElem?]; exact h2
    refine ⟨?_, ?_, ?_⟩ <;>
      simp [MemoryState.evict_keys, h1, h2', Nat.sub_eq_zero_of_le] <;>
        exact fun hle => Nat.sub_eq_zero_of_le hle
  · intro m count rngIdx st h
    have hne : m.state.isEmpty = false := by
      cases hs : m.state with
      | nil => rw [hs] at h; simp at h
      | cons a l => simp [hs]
    have h' : m.state[rngIdx % m.state.length]? = some st := by
      rw [← List.get?_eq_getElem?]; exact h
    refine ⟨?_, ?_, ?_⟩ <;>
      simp [MemoryState.evict_random_keys, hne, h', Nat.sub_eq_zero_of_le] <;>
        exact fun hle => Nat.sub_eq_zero_of_le hle

theorem find?_any {α} {p : α → Bool} {l : List α} {a : α}
    (h : l.find? p = some a) : l.any p = true :=
  List.any_eq_true.mpr ⟨a, List.mem_of_find?_eq_some h, List.find?_some h⟩

theorem insert_tagged_step {m : MemoryState} {t : Tag} {i : Nat}
    {st : SingleState} {e : KeyEntry} {k : List DataType} {r : Row}
    {ts : Timestamp}
    (h1 : byTagGet m t = some i) (h2 : m.state.get? i = some st)
    (h3 : st.entries.find? (fun e2 => e2.keyval == k) = some e)
    (hk : keyProj st.key r = k) :
    (m.insert r (some t) ts).1 =
      { m with
        state := m.state.set i { st with entries := st.entries.map (fun e2 =>
          if e2.keyval == k then
            { e2 with versions := e2.versions ++ [(ts, r)] } else e2) },
        mem_size := m.mem_size + deepSizeOf r + VERSIONED_ROW_HEADER_SIZE } ∧
    (m.insert r (some t) ts).2 = true := by
  have hasK : st.hasKey k = true := find?_any h3
  have h2' : m.state[i]? = some st := by
    rw [← List.get?_eq_getElem?]; exact h2
  constructor <;>
    simp [MemoryState.insert, h1, h2', SingleState.insert_row, hk, hasK,
      SingleState.appendVersion]

theorem insertsFold_spec (t : Tag) (ts : Timestamp) :
    ∀ (rs : List Row) (m : MemoryState) (i : Nat) (st : SingleState)
      (e : KeyEntry) (k : List DataType),
    byTagGet m t = some i → m.state.get? i = some st →
    st.entries.find? (fun e2 => e2.keyval == k) = some e →
    (∀ r ∈ rs, keyProj st.key r = k) →
    ∃ st' e',
      byTagGet (insertsFold m t ts rs) t = some i ∧
      (insertsFold m t ts rs).state.get? i = some st' ∧
      st'.key = st.key ∧
      st'.entries.find? (fun e2 => e2.keyval == k) = some e' ∧
      e'.versions = e.versions ++ rs.map (fun r => (ts, r)) ∧
      (insertsFold m t ts rs).mem_size = m.mem_size +
        (rs.map (fun r => deepSizeOf r + VERSIONED_ROW_HEADER_SIZE)).sum := by
  intro rs
  induction rs with
  | nil =>
    intro m i st e k h1 h2 h3 _
    exact ⟨st, e, h1, h2, rfl, h3, by simp, by simp [insertsFold]⟩
  | cons r rest ih =>
    intro m i st e k h1 h2 h3 hks
    have hk : keyProj st.key r = k := hks r (by simp)
    obtain ⟨hm1, _⟩ := insert_tagged_step h1 h2 h3 hk
    set st1 : SingleState := { st with entries := st.entries.map (fun e2 =>
      if e2.keyval == k then
        { e2 with versions := e2.versions ++ [(ts, r)] } else e2) } with hst1
    set m1 : MemoryState := (m.insert r (some t) ts).1 with hm1def
    have hfold : insertsFold m t ts (r :: rest) = insertsFold m1 t ts rest :=
      rfl
    have h1' : byTagGet m1 t = some i := by
      rw [hm1]; exact h1
    have h2' : m1.state.get? i = some st1 := by
      rw [hm1]; exact get?_set_self h2
    have hpres : ∀ e2 : KeyEntry,
        ((if e2.keyval == k then
          { e2 with versions := e2.versions ++ [(ts, r)] } else e2).keyval
            == k) = (e2.keyval == k) := by
      intro e2
      by_cases hc : (e2.keyval == k) = true
      · simp [hc]
      · simp only [Bool.not_eq_true] at hc
        simp [hc]
    have h3' : st1.entries.find? (fun e2 => e2.keyval == k) =
        some { e with versions := e.versions ++ [(ts, r)] } := by
      have hek : e.keyval = k := by simpa using List.find?_some h3
      rw [hst1]
      simp only
      rw [find?_map_pres _ hpres st.entries, h3]
      simp [hek]
    have hks' : ∀ r' ∈ rest, keyProj st1.key r' = k := by
      intro r' hr'
      exact hks r' (by simp [hr'])
    obtain ⟨st', e', ha, hb, hc, hd, he, hf⟩ :=
      ih m1 i st1 { e with versions := e.versions ++ [(ts, r)] } k h1' h2'
        h3' hks'
    refine ⟨st', e', by rw [hfold]; exact ha, by rw [hfold]; exact hb,
      by rw [hc, hst1], hd, ?_, ?_⟩
    · rw [he]
      simp [List.append_assoc]
    · rw [hfold, hf, hm1]
      simp only [List.map_cons, List.sum_cons]
      omega

theorem find?_isSome_of_any {α} {p : α → Bool} {l : List α}
    (h : l.any p = true) : ∃ a, l.find? p = some a := by
  cases hfind : l.find? p with
  | some a => exact ⟨a, rfl⟩
  | none =>
    obtain ⟨x, hx, hpx⟩ := List.any_eq_true.mp h
    exact absurd hpx (List.find?_eq_none.mp hfind x hx)

theorem appendVersion_key (st : SingleState) (k : List DataType)
    (v : Header × Row) : (st.appendVersion k v).key = st.key := by
  unfold SingleState.appendVersion
  split <;> rfl

theorem appendVersion_isPart (st : SingleState) (k : List DataType)
    (v : Header × Row) : (st.appendVersion k v).isPart = st.isPart := by
  unfold SingleState.appendVersion
  split <;> rfl

theorem versionsUnder_eq_of_find? {st : SingleState} {k : List DataType}
    {e : KeyEntry}
    (h : st.entries.find? (fun e2 => e2.keyval == k) = some e) :
    versionsUnder st k = e.versions.drop 1 := by
  unfold versionsUnder
  rw [h]

theorem versionsUnder_eq_nil_of_find? {st : SingleState} {k : List DataType}
    (h : st.entries.find? (fun e2 => e2.keyval == k) = none) :
    versionsUnder st k = [] := by
  unfold versionsUnder
  rw [h]

theorem versionsUnder_appendVersion (st : SingleState) (k : List DataType)
    (v : Header × Row) (hne : ∀ e ∈ st.entries, e.versions ≠ []) :
    versionsUnder (st.appendVersion k v) k = versionsUnder st k ++ [v] ∧
    (∀ k', k' ≠ k →
      versionsUnder (st.appendVersion k v) k' = versionsUnder st k') ∧
    (∀ e ∈ (st.appendVersion k v).entries, e.versions ≠ []) := by
  by_cases hk : st.hasKey k = true
  · obtain ⟨e, hfind⟩ := find?_isSome_of_any hk
    have hek : e.keyval = k := by simpa using List.find?_some hfind
    have hpres : ∀ k'' (e2 : KeyEntry),
        ((if e2.keyval == k then { e2 with versions := e2.versions ++ [v] }
          else e2).keyval == k'') = (e2.keyval == k'') := by
      intro k'' e2
      by_cases hc : (e2.keyval == k) = true
      · simp [hc]
      · simp only [Bool.not_eq_true] at hc
        simp [hc]
    have happ : st.appendVersion k v =
        { st with entries := st.entries.map (fun e2 =>
            if e2.keyval == k then { e2 with versions := e2.versions ++ [v] }
            else e2) } := by
      unfold SingleState.appendVersion
      rw [if_pos hk]
    have hfe : (st.appendVersion k v).entries.find?
        (fun e2 => e2.keyval == k) =
        some { e with versions := e.versions ++ [v] } := by
      rw [happ]
      simp only
      rw [find?_map_pres _ (hpres k) st.entries, hfind]
      simp [hek]
    refine ⟨?_, ?_, ?_⟩
    · rw [versionsUnder_eq_of_find? hfe, versionsUnder_eq_of_find? hfind]
      have hvne : e.versions ≠ [] := hne e (List.mem_of_find?_eq_some hfind)
      cases hv : e.versions with
      | nil => exact absurd hv hvne
      | cons w ws => simp
    · intro k' hk'
      cases hfind' : st.entries.find? (fun e2 => e2.keyval == k') with
      | none =>
        have hfe' : (st.appendVersion k v).entries.find?
            (fun e2 => e2.keyval == k') = none := by
          rw [happ]
          simp only
          rw [find?_map_pres _ (hpres k') st.entries, hfind']
          rfl
        rw [versionsUnder_eq_nil_of_find? hfe',
          versionsUnder_eq_nil_of_find? hfind']
      | some e' =>
        have hek' : e'.keyval = k' := by simpa using List.find?_some hfind'
        have hne' : (e'.keyval == k) = false := by
          rw [hek']
          simp
          exact hk'
        have hfe' : (st.appendVersion k v).entries.find?
            (fun e2 => e2.keyval == k') = some e' := by
          rw [happ]
          simp only
          rw [find?_map_pres _ (hpres k') st.entries, hfind']
          have hcond : ¬((e'.keyval == k) = true) := by
            rw [hne']
            exact Bool.false_ne_true
          simp [hcond]
          intro h
          exact absurd (hek'.symm.trans h) hk'
        rw [versionsUnder_eq_of_find? hfe',
          versionsUnder_eq_of_find? hfind']
    · intro e2 he2
      rw [happ] at he2
      simp only [List.mem_map] at he2
      obtain ⟨e1, he1, rfl⟩ := he2
      by_cases hc : (e1.keyval == k) = true
      · simp [hc]
      · simp only [Bool.not_eq_true] at hc
        simp [hc]
        exact hne e1 he1
  · simp only [Bool.not_eq_true] at hk
    have hfind : st.entries.find? (fun e2 => e2.keyval == k) = none := by
      rw [List.find?_eq_none]
      intro e2 he2 hpe
      have hany : st.entries.any (fun e3 => e3.keyval == k) = true :=
        List.any_eq_true.mpr ⟨e2, he2, hpe⟩
      rw [SingleState.hasKey] at hk
      rw [hk] at hany
      exact Bool.false_ne_true hany
    have happ : st.appendVersion k v =
        { st with entries := st.entries ++ [⟨k, [sentinelV, v]⟩] } := by
      unfold SingleState.appendVersion
      rw [hk]
      simp
    refine ⟨?_, ?_, ?_⟩
    · have hfe : (st.appendVersion k v).entries.find?
          (fun e2 => e2.keyval == k) =
          some (⟨k, [sentinelV, v]⟩ : KeyEntry) := by
        rw [happ]
        simp only
        rw [List.find?_append, hfind]
        simp
      rw [versionsUnder_eq_of_find? hfe, versionsUnder_eq_nil_of_find? hfind]
      simp [sentinelV]
    · intro k' hk'
      have hkk' : k ≠ k' := fun h => hk' h.symm
      have hsing : List.find? (fun e2 => e2.keyval == k')
          [(⟨k, [sentinelV, v]⟩ : KeyEntry)] = none := by
        simp [hkk']
      cases hfind' : st.entries.find? (fun e2 => e2.keyval == k') with
      | none =>
        have hfe' : (st.appendVersion k v).entries.find?
            (fun e2 => e2.keyval == k') = none := by
          rw [happ]
          simp only
          rw [List.find?_append, hfind', hsing]
          rfl
        rw [versionsUnder_eq_nil_of_find? hfe',
          versionsUnder_eq_nil_of_find? hfind']
      | some e' =>
        have hfe' : (st.appendVersion k v).entries.find?
            (fun e2 => e2.keyval == k') = some e' := by
          rw [happ]
          simp only
          rw [List.find?_append, hfind']
          rfl
        rw [versionsUnder_eq_of_find? hfe',
          versionsUnder_eq_of_find? hfind']
    · intro e2 he2
      rw [happ] at he2
      simp only [List.mem_append, List.mem_singleton] at he2
      rcases he2 with he2 | rfl
      · exact hne e2 he2
      · simp

theorem foldl_backfill (vs : List (Header × Row)) :
    ∀ (init : SingleState), (∀ e ∈ init.entries, e.versions ≠ []) →
    (vs.foldl (fun a v => a.insert_row_with_header v.2 v.1) init).key =
      init.key ∧
    (vs.foldl (fun a v => a.insert_row_with_header v.2 v.1) init).isPart =
      init.isPart ∧
    (∀ e ∈ (vs.foldl (fun a v => a.insert_row_with_header v.2 v.1)
      init).entries, e.versions ≠ []) ∧
    (∀ k', versionsUnder
        (vs.foldl (fun a v => a.insert_row_with_header v.2 v.1) init) k' =
      versionsUnder init k' ++
        vs.filter (fun v => keyProj init.key v.2 == k')) := by
  induction vs with
  | nil =>
    intro init hne
    exact ⟨rfl, rfl, hne, fun k' => by simp⟩
  | cons v vs ih =>
    intro init hne
    set st1 := init.insert_row_with_header v.2 v.1 with hst1
    have happ : st1 = init.appendVersion (keyProj init.key v.2) v := by
      rw [hst1, SingleState.insert_row_with_header]
    obtain ⟨hu1, hu2, hu3⟩ :=
      versionsUnder_appendVersion init (keyProj init.key v.2) v hne
    have hkey1 : st1.key = init.key := by rw [happ, appendVersion_key]
    have hpart1 : st1.isPart = init.isPart := by
      rw [happ, appendVersion_isPart]
    have hne1 : ∀ e ∈ st1.entries, e.versions ≠ [] := by rw [happ]; exact hu3
    obtain ⟨ha, hb, hc, hd⟩ := ih st1 hne1
    have hfold : (v :: vs).foldl
        (fun a w => a.insert_row_with_header w.2 w.1) init =
        vs.foldl (fun a w => a.insert_row_with_header w.2 w.1) st1 := rfl
    refine ⟨by rw [hfold, ha, hkey1], by rw [hfold, hb, hpart1],
      by rw [hfold]; exact hc, ?_⟩
    intro k'
    rw [hfold, hd k', hkey1]
    by_cases hkk : keyProj init.key v.2 = k'
    · have hpv : (keyProj init.key v.2 == k') = true := by simp [hkk]
      rw [hkk] at hu1
      rw [List.filter_cons, if_pos hpv, happ, hkk, hu1]
      simp
    · have hpv : (keyProj init.key v.2 == k') = false := by simp [hkk]
      rw [List.filter_cons, if_neg (by simp [hpv])]
      rw [happ, hu2 k' (fun h => hkk h.symm)]

theorem lookup_full_eq (st : SingleState) (hfull : st.isPart = false)
    (k : List DataType) :
    st.lookup k none = some ((versionsUnder st k).map Prod.snd) := by
  unfold SingleState.lookup versionsUnder
  cases st.entries.find? (fun e => e.keyval == k) <;> simp [hfull]

theorem nested_backfill (es : List KeyEntry) :
    ∀ (init : SingleState), (∀ e ∈ init.entries, e.versions ≠ []) →
    (es.foldl (fun acc e => (e.versions.drop 1).foldl
        (fun a v => a.insert_row_with_header v.2 v.1) acc) init).key =
      init.key ∧
    (es.foldl (fun acc e => (e.versions.drop 1).foldl
        (fun a v => a.insert_row_with_header v.2 v.1) acc) init).isPart =
      init.isPart ∧
    (∀ e ∈ (es.foldl (fun acc e => (e.versions.drop 1).foldl
        (fun a v => a.insert_row_with_header v.2 v.1) acc) init).entries,
      e.versions ≠ []) ∧
    (∀ k', versionsUnder (es.foldl (fun acc e => (e.versions.drop 1).foldl
        (fun a v => a.insert_row_with_header v.2 v.1) acc) init) k' =
      versionsUnder init k' ++
        ((es.map (fun e => e.versions.drop 1)).flatten.filter
          (fun v => keyProj init.key v.2 == k'))) := by
  induction es with
  | nil =>
    intro init hne
    exact ⟨rfl, rfl, hne, fun k' => by simp⟩
  | cons e es ih =>
    intro init hne
    set st1 := (e.versions.drop 1).foldl
      (fun a v => a.insert_row_with_header v.2 v.1) init with hst1
    obtain ⟨hk1, hp1, hn1, hv1⟩ := foldl_backfill (e.versions.drop 1) init hne
    obtain ⟨ha, hb, hc, hd⟩ := ih st1 hn1
    have hfold : (e :: es).foldl (fun acc e2 => (e2.versions.drop 1).foldl
        (fun a v => a.insert_row_with_header v.2 v.1) acc) init =
        es.foldl (fun acc e2 => (e2.versions.drop 1).foldl
          (fun a v => a.insert_row_with_header v.2 v.1) acc) st1 := rfl
    refine ⟨by rw [hfold, ha, hk1], by rw [hfold, hb, hp1],
      by rw [hfold]; exact hc, ?_⟩
    intro k'
    rw [hfold, hd k', hv1 k', hk1]
    simp [List.filter_append, List.append_assoc]

/-- Claim C2: if the first index is fully materialized, `add_key` with a new
key-column set and no tags succeeds and creates a new fully materialized
index at the end of the collection holding, under each of its key values,
exactly the stored versions of the first index whose rows project to that
key value, in enumeration order; in particular a point lookup on the new
index for any stored row's projected key returns that row. -/
theorem claim2_addkey_backfills (m : MemoryState) (cols : List Nat)
    (first : SingleState) (rest : List SingleState)
    (hstate : m.state = first :: rest)
    (hfull : first.isPart = false)
    (hnew : m.state_for cols = none) :
    (m.add_key cols none).isSome = true ∧
    (∀ m', m.add_key cols none = some m' →
      ∃ newIdx,
        m'.state = m.state ++ [newIdx] ∧
        newIdx.key = cols ∧
        newIdx.isPart = false ∧
        (∀ k', versionsUnder newIdx k' =
          (flatVersions first).filter (fun v => keyProj cols v.2 == k')) ∧
        (∀ r h, (h, r) ∈ flatVersions first →
          ∃ rows, m'.lookup cols (keyProj cols r) = some (some rows) ∧
            r ∈ rows)) := by
  set newIdx := first.entries.foldl (fun acc e => (e.versions.drop 1).foldl
    (fun a v => a.insert_row_with_header v.2 v.1) acc)
    (SingleState.new cols false) with hNdef
  obtain ⟨hkeyN, hpartN, _, hversN⟩ :=
    nested_backfill first.entries (SingleState.new cols false)
      (by intro e he; simp [SingleState.new] at he)
  have hkey : m.add_key cols none =
      some { m with state := m.state ++ [newIdx] } := by
    simp only [MemoryState.add_key, hnew, hstate, Option.getD_none,
      List.foldl_nil]
    rw [hfull, if_neg Bool.false_ne_true, ← hstate, ← hNdef]
  have hversN' : ∀ k', versionsUnder newIdx k' =
      (flatVersions first).filter (fun v => keyProj cols v.2 == k') := by
    intro k'
    rw [hversN k']
    have hvnil : versionsUnder (SingleState.new cols false) k' = [] :=
      versionsUnder_eq_nil_of_find? rfl
    rw [hvnil, List.nil_append]
    rfl
  constructor
  · rw [hkey]
    rfl
  · intro m' hm'
    rw [hkey] at hm'
    have hm'' := (Option.some.inj hm').symm
    refine ⟨newIdx, by rw [hm''], by rw [hkeyN]; rfl, by rw [hpartN]; rfl,
      hversN', ?_⟩
    intro r h hmem
    have hpos : listPosition (fun s => s.key == cols) m'.state =
        some m.state.length := by
      rw [hm'']
      refine listPosition_append_last ?_ ?_
      · intro y hy
        have := listPosition_none.mp hnew
        exact this y hy
      · rw [hkeyN]
        simp [SingleState.new]
    have hget : m'.state.get? m.state.length = some newIdx := by
      rw [hm'']
      exact List.get?_concat_length m.state newIdx
    have hlook : m'.lookup cols (keyProj cols r) =
        some (newIdx.lookup (keyProj cols r) none) := by
      rw [MemoryState.lookup, MemoryState.lookup_at, MemoryState.state_for,
        hpos]
      simp
      exact ⟨newIdx, by rw [← List.get?_eq_getElem?]; exact hget, rfl⟩
    have hfullN : newIdx.isPart = false := by rw [hpartN]; rfl
    rw [lookup_full_eq newIdx hfullN] at hlook
    refine ⟨(versionsUnder newIdx (keyProj cols r)).map Prod.snd, hlook, ?_⟩
    rw [hversN' (keyProj cols r)]
    refine List.mem_map.mpr ⟨(h, r), ?_, rfl⟩
    refine List.mem_filter.mpr ⟨hmem, ?_⟩
    simp

theorem map_ext_fun {α β} (f g : α → β) (h : ∀ a, f a = g a) :
    ∀ l : List α, l.map f = l.map g := by
  intro l
  induction l with
  | nil => rfl
  | cons a l ih => simp [h a, ih]

theorem set_same {α} : ∀ (l : List α) (i : Nat) (a : α),
    l.get? i = some a → l.set i a = l := by
  intro l
  induction l with
  | nil => intro i a h; simp at h
  | cons x xs ih =>
    intro i a h
    cases i with
    | zero =>
      have hx : x = a := Option.some.inj h
      show a :: xs = x :: xs
      rw [hx]
    | succ n =>
      have h' : xs.get? n = some a := h
      show x :: xs.set n a = x :: xs
      rw [ih n a h']

theorem map_set_same {α β} (f : α → β) {l : List α} {i : Nat} {a b : α}
    (h : l.get? i = some b) (hf : f a = f b) : (l.set i a).map f = l.map f := by
  rw [List.map_set, hf]
  apply set_same
  rw [List.get?_map, h]
  rfl

theorem insert_row_isPart (st : SingleState) (r : Row) (ts : Timestamp) :
    (st.insert_row r ts).1.isPart = st.isPart := by
  rw [SingleState.insert_row]
  split
  · rfl
  · exact appendVersion_isPart st _ _

theorem remove_row_isPart (st : SingleState) (r : Row) :
    (st.remove_row r).1.isPart = st.isPart := by
  rw [SingleState.remove_row]
  cases st.entries.find? (fun e => e.keyval == keyProj st.key r) <;> rfl

theorem mark_filled_isPart (st : SingleState) (k : List DataType) :
    (st.mark_filled k).isPart = st.isPart := by
  rw [SingleState.mark_filled]
  split <;> rfl

theorem mark_hole_isPart (st : SingleState) (k : List DataType) :
    (st.mark_hole k).1.isPart = st.isPart := by
  rw [SingleState.mark_hole]
  cases st.entries.find? (fun e => e.keyval == k) <;> rfl

theorem evict_foldl_isPart :
    ∀ (ks : List (List DataType)) (acc : SingleState × Nat),
    (ks.foldl (fun acc k =>
      let p := acc.1.mark_hole k
      (p.1, acc.2 + p.2)) acc).1.isPart = acc.1.isPart := by
  intro ks
  induction ks with
  | nil => intro acc; rfl
  | cons k ks ih =>
    intro acc
    rw [List.foldl_cons, ih]
    exact mark_hole_isPart acc.1 k

theorem evict_keys_isPart (st : SingleState) (ks : List (List DataType)) :
    (st.evict_keys ks).1.isPart = st.isPart :=
  evict_foldl_isPart ks (st, 0)

theorem insert_pres (m : MemoryState) (r : Row) (ptag : Option Tag)
    (ts : Timestamp) :
    (m.insert r ptag ts).1.by_tag = m.by_tag ∧
    (m.insert r ptag ts).1.state.map SingleState.isPart =
      m.state.map SingleState.isPart := by
  cases ptag with
  | none =>
    refine ⟨rfl, ?_⟩
    show ((m.state.map (fun st => st.insert_row r ts)).map Prod.fst).map
      SingleState.isPart = m.state.map SingleState.isPart
    rw [List.map_map, List.map_map]
    exact map_ext_fun _ _ (fun st => insert_row_isPart st r ts) m.state
  | some t =>
    cases hbt : byTagGet m t with
    | none => constructor <;> simp [MemoryState.insert, hbt]
    | some i =>
      cases hg : m.state.get? i with
      | none =>
        have hg' : m.state[i]? = none := by
          rw [← List.get?_eq_getElem?]; exact hg
        constructor <;> simp [MemoryState.insert, hbt, hg']
      | some st =>
        have hg' : m.state[i]? = some st := by
          rw [← List.get?_eq_getElem?]; exact hg
        constructor
        · simp [MemoryState.insert, hbt, hg']
        · show (m.insert r (some t) ts).1.state.map SingleState.isPart = _
          have hstate : (m.insert r (some t) ts).1.state =
              m.state.set i (st.insert_row r ts).1 := by
            simp [MemoryState.insert, hbt, hg']
          rw [hstate]
          exact map_set_same SingleState.isPart hg (insert_row_isPart st r ts)

theorem remove_pres (m : MemoryState) (r : Row) (ts : Timestamp) :
    (m.remove r ts).1.by_tag = m.by_tag ∧
    (m.remove r ts).1.state.map SingleState.isPart =
      m.state.map SingleState.isPart := by
  refine ⟨rfl, ?_⟩
  show ((m.state.map (fun st => st.remove_row r)).map Prod.fst).map
    SingleState.isPart = m.state.map SingleState.isPart
  rw [List.map_map, List.map_map]
  exact map_ext_fun _ _ (fun st => remove_row_isPart st r) m.state

theorem applyRec_pres (m : MemoryState) (ptag : Option Tag) (ts : Timestamp)
    (rec : Record) :
    (m.applyRec ptag ts rec).1.by_tag = m.by_tag ∧
    (m.applyRec ptag ts rec).1.state.map SingleState.isPart =
      m.state.map SingleState.isPart := by
  cases rec with
  | positive r => exact insert_pres m r ptag ts
  | negative r => exact remove_pres m r ts

theorem processLoop_pres (ptag : Option Tag) (ts : Timestamp) :
    ∀ (recs : List Record) (m : MemoryState),
    (processLoop ptag ts m recs).1.by_tag = m.by_tag ∧
    (processLoop ptag ts m recs).1.state.map SingleState.isPart =
      m.state.map SingleState.isPart := by
  intro recs
  induction recs with
  | nil => intro m; exact ⟨rfl, rfl⟩
  | cons rec rest ih =>
    intro m
    have h1 := applyRec_pres m ptag ts rec
    have h2 := ih (m.applyRec ptag ts rec).1
    constructor
    · show (processLoop ptag ts (m.applyRec ptag ts rec).1 rest).1.by_tag = _
      rw [h2.1, h1.1]
    · show (processLoop ptag ts (m.applyRec ptag ts rec).1
        rest).1.state.map SingleState.isPart = _
      rw [h2.2, h1.2]

theorem foldApply_pres (ts : Timestamp) :
    ∀ (recs : List Record) (m : MemoryState),
    (recs.foldl (fun acc rec => (acc.applyRec none ts rec).1) m).by_tag =
      m.by_tag ∧
    (recs.foldl (fun acc rec =>
      (acc.applyRec none ts rec).1) m).state.map SingleState.isPart =
      m.state.map SingleState.isPart := by
  intro recs
  induction recs with
  | nil => intro m; exact ⟨rfl, rfl⟩
  | cons rec rest ih =>
    intro m
    have h1 := applyRec_pres m none ts rec
    have h2 := ih (m.applyRec none ts rec).1
    rw [List.foldl_cons]
    exact ⟨h2.1.trans h1.1, h2.2.trans h1.2⟩

theorem process_records_pres (m : MemoryState) (recs : List Record)
    (ts : Timestamp) (ptag : Option Tag) :
    (m.process_records recs ts ptag).1.by_tag = m.by_tag ∧
    (m.process_records recs ts ptag).1.state.map SingleState.isPart =
      m.state.map SingleState.isPart := by
  rw [MemoryState.process_records]
  by_cases hp : m.isPart = true
  · rw [if_pos hp]
    exact processLoop_pres ptag ts recs m
  · rw [if_neg hp]
    exact foldApply_pres ts recs m

theorem mark_filled_pres (m m' : MemoryState) (k : List DataType) (t : Tag)
    (h : m.mark_filled k t = some m') :
    m'.by_tag = m.by_tag ∧
    m'.state.map SingleState.isPart = m.state.map SingleState.isPart := by
  cases hbt : byTagGet m t with
  | none =>
    have key : m.mark_filled k t = none := by
      simp [MemoryState.mark_filled, hbt]
    rw [key] at h
    exact absurd h (by simp)
  | some i =>
    cases hg : m.state.get? i with
    | none =>
      have hg' : m.state[i]? = none := by
        rw [← List.get?_eq_getElem?]; exact hg
      have key : m.mark_filled k t = none := by
        simp [MemoryState.mark_filled, hbt, hg']
      rw [key] at h
      exact absurd h (by simp)
    | some st =>
      have hg' : m.state[i]? = some st := by
        rw [← List.get?_eq_getElem?]; exact hg
      have key : m.mark_filled k t =
          some { m with state := m.state.set i (st.mark_filled k) } := by
        simp [MemoryState.mark_filled, hbt, hg']
      rw [key] at h
      have hm' := (Option.some.inj h).symm
      rw [hm']
      exact ⟨rfl, map_set_same SingleState.isPart hg (mark_filled_isPart st k)⟩

theorem mark_hole_pres (m m' : MemoryState) (k : List DataType) (t : Tag)
    (h : m.mark_hole k t = some m') :
    m'.by_tag = m.by_tag ∧
    m'.state.map SingleState.isPart = m.state.map SingleState.isPart := by
  cases hbt : byTagGet m t with
  | none =>
    have key : m.mark_hole k t = none := by
      simp [MemoryState.mark_hole, hbt]
    rw [key] at h
    exact absurd h (by simp)
  | some i =>
    cases hg : m.state.get? i with
    | none =>
      have hg' : m.state[i]? = none := by
        rw [← List.get?_eq_getElem?]; exact hg
      have key : m.mark_hole k t = none := by
        simp [MemoryState.mark_hole, hbt, hg']
      rw [key] at h
      exact absurd h (by simp)
    | some st =>
      have hg' : m.state[i]? = some st := by
        rw [← List.get?_eq_getElem?]; exact hg
      have key : m.mark_hole k t =
          if (st.mark_hole k).2 ≤ m.mem_size then
            some { m with state := m.state.set i (st.mark_hole k).1,
                          mem_size := m.mem_size - (st.mark_hole k).2 }
          else none := by
        simp [MemoryState.mark_hole, hbt, hg']
      rw [key] at h
      by_cases hle : (st.mark_hole k).2 ≤ m.mem_size
      · rw [if_pos hle] at h
        have hm' := (Option.some.inj h).symm
        rw [hm']
        exact ⟨rfl, map_set_same SingleState.isPart hg (mark_hole_isPart st k)⟩
      · rw [if_neg hle] at h
        exact absurd h (by simp)

theorem evict_keys_pres (m : MemoryState) (t : Tag)
    (ks : List (List DataType)) :
    (m.evict_keys t ks).1.by_tag = m.by_tag ∧
    (m.evict_keys t ks).1.state.map SingleState.isPart =
      m.state.map SingleState.isPart := by
  cases hbt : byTagGet m t with
  | none =>
    have key : (m.evict_keys t ks).1 = m := by
      simp [MemoryState.evict_keys, hbt]
    rw [key]
    exact ⟨rfl, rfl⟩
  | some i =>
    cases hg : m.state.get? i with
    | none =>
      have hg' : m.state[i]? = none := by
        rw [← List.get?_eq_getElem?]; exact hg
      have key : (m.evict_keys t ks).1 = m := by
        simp [MemoryState.evict_keys, hbt, hg']
      rw [key]
      exact ⟨rfl, rfl⟩
    | some st =>
      have hg' : m.state[i]? = some st := by
        rw [← List.get?_eq_getElem?]; exact hg
      have key : (m.evict_keys t ks).1 =
          { m with state := m.state.set i (st.evict_keys ks).1,
                   mem_size := m.mem_size - (st.evict_keys ks).2 } := by
        simp [MemoryState.evict_keys, hbt, hg']
      rw [key]
      exact ⟨rfl, map_set_same SingleState.isPart hg (evict_keys_isPart st ks)⟩

theorem evict_random_pres (m : MemoryState) (count rngIdx : Nat) :
    (m.evict_random_keys count rngIdx).1.by_tag = m.by_tag ∧
    (m.evict_random_keys count rngIdx).1.state.map SingleState.isPart =
      m.state.map SingleState.isPart := by
  by_cases hemp : m.state.isEmpty = true
  · have key : (m.evict_random_keys count rngIdx).1 = m := by
      simp [MemoryState.evict_random_keys, hemp]
    rw [key]
    exact ⟨rfl, rfl⟩
  · have hemp' : m.state.isEmpty = false := by
      simpa using hemp
    cases hg : m.state.get? (rngIdx % m.state.length) with
    | none =>
      have hg' : m.state[rngIdx % m.state.length]? = none := by
        rw [← List.get?_eq_getElem?]; exact hg
      have key : (m.evict_random_keys count rngIdx).1 = m := by
        simp [MemoryState.evict_random_keys, hemp', hg']
      rw [key]
      exact ⟨rfl, rfl⟩
    | some st =>
      have hg' : m.state[rngIdx % m.state.length]? = some st := by
        rw [← List.get?_eq_getElem?]; exact hg
      have key : (m.evict_random_keys count rngIdx).1 =
          { m with
            state := m.state.set (rngIdx % m.state.length)
              (st.evict_random_keys count).1,
            mem_size := m.mem_size - (st.evict_random_keys count).2.1 } := by
        simp [MemoryState.evict_random_keys, hemp', hg']
      rw [key]
      exact ⟨rfl, map_set_same SingleState.isPart hg rfl⟩

theorem clear_pres (m : MemoryState) :
    m.clear.by_tag = m.by_tag ∧
    m.clear.state.map SingleState.isPart =
      m.state.map SingleState.isPart := by
  refine ⟨rfl, ?_⟩
  show (m.state.map SingleState.clear).map SingleState.isPart = _
  rw [List.map_map]
  exact map_ext_fun _ _ (fun st => rfl) m.state

theorem length_eq_of_mapPart {m m' : MemoryState}
    (hsp : m'.state.map SingleState.isPart =
      m.state.map SingleState.isPart) :
    m'.state.length = m.state.length := by
  have h := congrArg List.length hsp
  simpa using h

theorem tagsOk_of_pres {m m' : MemoryState} (hbt : m'.by_tag = m.by_tag)
    (hsp : m'.state.map SingleState.isPart = m.state.map SingleState.isPart)
    (ht : TagsOk m) : TagsOk m' := by
  intro p hp
  rw [hbt] at hp
  rw [length_eq_of_mapPart hsp]
  exact ht p hp

theorem firstFullOk_of_pres {m m' : MemoryState}
    (hsp : m'.state.map SingleState.isPart = m.state.map SingleState.isPart)
    (hf : FirstFullOk m) : FirstFullOk m' := by
  intro st' hst' hfalse f' fs' hstate'
  have hmm : (false : Bool) ∈ m.state.map SingleState.isPart := by
    rw [← hsp]
    exact List.mem_map.mpr ⟨st', hst', hfalse⟩
  obtain ⟨st, hst, hstf⟩ := List.mem_map.mp hmm
  cases hms : m.state with
  | nil => rw [hms] at hst; simp at hst
  | cons f fs =>
    rw [hms] at hst
    have hffalse : f.isPart = false :=
      hf st (by rw [hms]; exact hst) hstf f fs hms
    have h1 : m'.state.map SingleState.isPart =
        f'.isPart :: fs'.map SingleState.isPart := by rw [hstate']; rfl
    have h2 : m.state.map SingleState.isPart =
        f.isPart :: fs.map SingleState.isPart := by rw [hms]; rfl
    have heq := hsp
    rw [h1, h2] at heq
    have hhead : f'.isPart = f.isPart := by
      injection heq
    rw [hhead, hffalse]

theorem tagInsert_fold_lt {n : Nat} (i : Nat) (hi : i < n) :
    ∀ (tags : List Tag) (bt : List (Tag × Nat)), (∀ p ∈ bt, p.2 < n) →
      ∀ p ∈ tags.foldl (fun b t => tagInsert b t i) bt, p.2 < n := by
  intro tags
  induction tags with
  | nil => intro bt hbt; exact hbt
  | cons t tags ih =>
    intro bt hbt
    rw [List.foldl_cons]
    apply ih
    intro p hp
    rw [tagInsert] at hp
    rcases List.mem_cons.mp hp with rfl | hp2
    · exact hi
    · exact hbt p (List.mem_filter.mp hp2).1

theorem state_for_lt {m : MemoryState} {cols : List Nat} {i : Nat}
    (h : m.state_for cols = some i) : i < m.state.length := by
  rw [MemoryState.state_for] at h
  obtain ⟨a, ha, _⟩ := listPosition_some h
  exact get?_some_lt ha

theorem claim2_witness :
    witC2.state = wFirstC2 :: [] ∧ wFirstC2.isPart = false ∧
      witC2.state_for [1] = none ∧ (witC2.add_key [1] none).isSome = true :=
  ⟨rfl, rfl, by decide,
    (claim2_addkey_backfills witC2 [1] wFirstC2 [] rfl rfl (by decide)).1⟩

/-- Claim C4: under a registered tag, `mark_hole` decrements the memory
estimate by exactly the bytes the index reports as freed and panics
(modelled as `none`) rather than saturating when those bytes exceed the
estimate; and a sequence of tagged inserts into a freshly filled key followed
by the `mark_hole` that frees exactly those bytes returns the estimate to its
pre-insert value without ever underflowing. -/
theorem claim4_mark_hole_accounting :
    (∀ (m : MemoryState) (k : List DataType) (t : Tag) (i : Nat)
       (st : SingleState),
       byTagGet m t = some i → m.state.get? i = some st →
       (∀ m', m.mark_hole k t = some m' →
          m'.mem_size + (st.mark_hole k).2 = m.mem_size) ∧
       (m.mem_size < (st.mark_hole k).2 → m.mark_hole k t = none)) ∧
    (∀ (m : MemoryState) (t : Tag) (i : Nat) (st : SingleState)
       (e : KeyEntry) (k : List DataType) (ts : Timestamp) (rs : List Row),
       byTagGet m t = some i → m.state.get? i = some st →
       st.entries.find? (fun e2 => e2.keyval == k) = some e →
       e.versions.length = 1 →
       (∀ r ∈ rs, keyProj st.key r = k) →
       ((insertsFold m t ts rs).mark_hole k t).map MemoryState.mem_size =
         some m.mem_size) := by
  constructor
  · intro m k t i st h1 h2
    have h2' : m.state[i]? = some st := by
      rw [← List.get?_eq_getElem?]; exact h2
    have key : m.mark_hole k t =
        if (st.mark_hole k).2 ≤ m.mem_size then
          some { m with state := m.state.set i (st.mark_hole k).1,
                        mem_size := m.mem_size - (st.mark_hole k).2 }
        else none := by
      simp [MemoryState.mark_hole, h1, h2']
    constructor
    · intro m' hm'
      rw [key] at hm'
      by_cases hle : (st.mark_hole k).2 ≤ m.mem_size
      · rw [if_pos hle] at hm'
        have hmm := Option.some.inj hm'
        rw [← hmm]
        simp [Nat.sub_add_cancel hle]
      · rw [if_neg hle] at hm'
        exact absurd hm' (by simp)
    · intro hlt
      rw [key, if_neg (by omega)]
  · intro m t i st e k ts rs h1 h2 h3 hlen hks
    obtain ⟨st', e', ha, hb, _, hd, he, hf⟩ :=
      insertsFold_spec t ts rs m i st e k h1 h2 h3 hks
    obtain ⟨v, hv⟩ := List.length_eq_one.mp hlen
    have hbytes : e'.bytes =
        (rs.map (fun r => deepSizeOf r + VERSIONED_ROW_HEADER_SIZE)).sum := by
      have hdrop : ([v] ++ rs.map (fun r => (ts, r))).drop 1 =
          rs.map (fun r => (ts, r)) := rfl
      rw [KeyEntry.bytes, he, hv, hdrop, List.map_map]
      rfl
    have hmh : st'.mark_hole k =
        ({ st' with
            entries := st'.entries.filter (fun e2 => !(e2.keyval == k)) },
         e'.bytes) := by
      rw [SingleState.mark_hole, hd]
    have hb' : (insertsFold m t ts rs).state[i]? = some st' := by
      rw [← List.get?_eq_getElem?]; exact hb
    have hle : e'.bytes ≤ (insertsFold m t ts rs).mem_size := by
      rw [hf, hbytes]; omega
    have key2 : (insertsFold m t ts rs).mark_hole k t =
        some { insertsFold m t ts rs with
               state := (insertsFold m t ts rs).state.set i
                 (st'.mark_hole k).1,
               mem_size := (insertsFold m t ts rs).mem_size - e'.bytes } := by
      simp [MemoryState.mark_hole, ha, hb', hmh, hle]
    have hmem : (insertsFold m t ts rs).mem_size - e'.bytes = m.mem_size := by
      rw [hf, hbytes]; omega
    rw [key2]
    simp [hmem]

theorem claim4_witness :
    wit5.mark_hole [1] 5 = none ∧
      ((insertsFold wit4 5 0 [[1, 2], [1, 3]]).mark_hole [1] 5).map
        MemoryState.mem_size = some 0 := by
  constructor
  · exact (claim4_mark_hole_accounting.1 wit5 [1] 5 0 wSt5 (by decide)
      (by decide)).2 (by decide)
  · exact claim4_mark_hole_accounting.2 wit4 5 0 wSt4 ⟨[1], [sentinelV]⟩
      [1] 0 [[1, 2], [1, 3]] (by decide) (by decide) (by decide) (by decide)
      (by decide)

theorem any_map_snd {α β} (f : α → β × Bool) :
    ∀ l : List α, (l.map f).any Prod.snd = l.any (fun a => (f a).2) := by
  intro l
  induction l with
  | nil => rfl
  | cons a l ih => simp [ih]

theorem processLoop_sublist (ptag : Option Tag) (ts : Timestamp) :
    ∀ (recs : List Record) (m : MemoryState),
      (processLoop ptag ts m recs).2.Sublist recs := by
  intro recs
  induction recs with
  | nil => intro m; simp [processLoop]
  | cons rec rest ih =>
    intro m
    show (if (m.applyRec ptag ts rec).2 then
        rec :: (processLoop ptag ts (m.applyRec ptag ts rec).1 rest).2
      else (processLoop ptag ts (m.applyRec ptag ts rec).1 rest).2).Sublist
      (rec :: rest)
    by_cases hhit : (m.applyRec ptag ts rec).2 = true
    · rw [if_pos hhit]
      exact (ih (m.applyRec ptag ts rec).1).cons₂ rec
    · simp only [Bool.not_eq_true] at hhit
      rw [hhit, if_neg (by simp)]
      exact (ih (m.applyRec ptag ts rec).1).cons rec

/-- Claim C1 counterexample: in a partial store where tag 5 is registered and
its index has a hole at the record's key, a positive record carrying the
(known) tag 5 is dropped from the batch, contradicting the claim that a
record carrying a replay tag is always counted as absorbed and retained. -/
theorem claim1_counterexample :
    wCex1.isPart = true ∧ byTagGet wCex1 5 = some 0 ∧
      (wCex1.process_records [Record.positive [1, 2]] 0 (some 5)).2 = [] := by
  decide

/-- Claim C1 (amended): on a partial store, `process_records` filters the
batch in place, preserving relative order (the result is a sublist), keeping
each record iff its in-order application reported a hit, where the hit is:
for a negative record, that some index found a matching row; for an untagged
positive record, that some index absorbed it; for a positive record with an
unknown replay tag, always (and the store is untouched); and for a positive
record with a known replay tag, exactly the tagged index's own accept
verdict — not unconditionally. -/
theorem claim1_partial_filtering (m : MemoryState) (recs : List Record)
    (ts : Timestamp) (ptag : Option Tag) (hp : m.isPart = true) :
    (m.process_records recs ts ptag).2.Sublist recs ∧
    m.process_records recs ts ptag = processLoop ptag ts m recs ∧
    (∀ (m' : MemoryState) (rec : Record) (rest : List Record),
       processLoop ptag ts m' (rec :: rest) =
         ((processLoop ptag ts (m'.applyRec ptag ts rec).1 rest).1,
          if (m'.applyRec ptag ts rec).2 then
            rec :: (processLoop ptag ts (m'.applyRec ptag ts rec).1 rest).2
          else (processLoop ptag ts (m'.applyRec ptag ts rec).1 rest).2)) ∧
    (∀ (m' : MemoryState) (r : Row) (t : Tag),
       byTagGet m' t = none → m'.insert r (some t) ts = (m', true)) ∧
    (∀ (m' : MemoryState) (r : Row) (t : Tag) (i : Nat) (st : SingleState),
       byTagGet m' t = some i → m'.state.get? i = some st →
       (m'.insert r (some t) ts).2 = (st.insert_row r ts).2) ∧
    (∀ (m' : MemoryState) (r : Row),
       (m'.insert r none ts).2 =
         m'.state.any (fun st => (st.insert_row r ts).2)) ∧
    (∀ (m' : MemoryState) (r : Row),
       (m'.remove r ts).2 =
         m'.state.any (fun st => (st.remove_row r).2)) := by
  refine ⟨?_, ?_, ?_, ?_, ?_, ?_, ?_⟩
  · rw [MemoryState.process_records, if_pos hp]
    exact processLoop_sublist ptag ts recs m
  · rw [MemoryState.process_records, if_pos hp]
  · intro m' rec rest
    rfl
  · intro m' r t h
    simp [MemoryState.insert, h]
  · intro m' r t i st h1 h2
    have h2' : m'.state[i]? = some st := by
      rw [← List.get?_eq_getElem?]; exact h2
    simp [MemoryState.insert, h1, h2']
  · intro m' r
    exact any_map_snd (fun st => st.insert_row r ts) m'.state
  · intro m' r
    exact any_map_snd (fun st => st.remove_row r) m'.state

theorem claim1_witness :
    wit4.isPart = true ∧
      (wit4.process_records wRecs 0 none).2.Sublist wRecs ∧
      wit4.process_records wRecs 0 none = processLoop none 0 wit4 wRecs :=
  ⟨by decide,
   (claim1_partial_filtering wit4 wRecs 0 none (by decide)).1,
   (claim1_partial_filtering wit4 wRecs 0 none (by decide)).2.1⟩

theorem add_key_inv {m m' : MemoryState} {cols : List Nat}
    {po : Option (List Tag)} (h : m.add_key cols po = some m')
    (ht : TagsOk m) (hf : FirstFullOk m) : TagsOk m' ∧ FirstFullOk m' := by
  cases hsf : m.state_for cols with
  | some i =>
    have hi : i < m.state.length := state_for_lt hsf
    have key : m.add_key cols po = some { m with
        by_tag := (po.getD []).foldl (fun bt t => tagInsert bt t i) m.by_tag
      } := by
      simp [MemoryState.add_key, hsf]
    rw [key] at h
    have hm' := (Option.some.inj h).symm
    rw [hm']
    constructor
    · intro p hp
      exact tagInsert_fold_lt i hi (po.getD []) m.by_tag ht p hp
    · intro st hst hfalse f fs hstate
      exact hf st hst hfalse f fs hstate
  | none =>
    cases po with
    | some tags' =>
      have key : m.add_key cols (some tags') = some { m with
          by_tag := tags'.foldl
            (fun bt t => tagInsert bt t m.state.length) m.by_tag,
          state := m.state ++ [SingleState.new cols true] } := by
        simp [MemoryState.add_key, hsf]
      rw [key] at h
      have hm' := (Option.some.inj h).symm
      rw [hm']
      constructor
      · intro p hp
        have hlen : (m.state ++ [SingleState.new cols true]).length =
            m.state.length + 1 := by simp
        show p.2 < (m.state ++ [SingleState.new cols true]).length
        rw [hlen]
        have hlt := tagInsert_fold_lt (n := m.state.length + 1)
          m.state.length (Nat.lt_succ_self _) tags' m.by_tag
          (fun p hp2 => Nat.lt_succ_of_lt (ht p hp2)) p hp
        exact hlt
      · intro st hst hfalse f fs hstate
        rcases List.mem_append.mp hst with hin | hsing
        · cases hms : m.state with
          | nil => rw [hms] at hin; simp at hin
          | cons f0 fs0 =>
            have hffalse : f0.isPart = false := by
              rw [hms] at hin
              exact hf st (by rw [hms]; exact hin) hfalse f0 fs0 hms
            have : f = f0 := by
              rw [hms] at hstate
              simp at hstate
              exact hstate.1.symm
            rw [this, hffalse]
        · have : st = SingleState.new cols true := by
            simpa using hsing
          rw [this] at hfalse
          exact absurd hfalse (by simp [SingleState.new])
    | none =>
      cases hms : m.state with
      | nil =>
        have key : m.add_key cols none = some { m with
            state := [SingleState.new cols false] } := by
          simp [MemoryState.add_key, hsf, hms]
        rw [key] at h
        have hm' := (Option.some.inj h).symm
        rw [hm']
        constructor
        · intro p hp
          have habs := ht p hp
          rw [hms] at habs
          simp at habs
        · intro st hst hfalse f fs hstate
          have : f = SingleState.new cols false := by
            simp at hstate
            exact hstate.1.symm
          rw [this]
          rfl
      | cons f0 fs0 =>
        by_cases hfp : f0.isPart = true
        · have key : m.add_key cols none = none := by
            simp [MemoryState.add_key, hsf, hms, hfp]
          rw [key] at h
          exact absurd h (by simp)
        · have hfp' : f0.isPart = false := by simpa using hfp
          set newIdx := f0.entries.foldl
            (fun acc e => (e.versions.drop 1).foldl
              (fun a v => a.insert_row_with_header v.2 v.1) acc)
            (SingleState.new cols false) with hNdef
          have key : m.add_key cols none = some { m with
              state := m.state ++ [newIdx] } := by
            simp only [MemoryState.add_key, hsf, hms, Option.getD_none,
              List.foldl_nil]
            rw [hfp', if_neg Bool.false_ne_true, ← hms, ← hNdef]
          rw [key] at h
          have hm' := (Option.some.inj h).symm
          rw [hm']
          constructor
          · intro p hp
            have hlen : (m.state ++ [newIdx]).length =
                m.state.length + 1 := by simp
            show p.2 < (m.state ++ [newIdx]).length
            rw [hlen]
            exact Nat.lt_succ_of_lt (ht p hp)
          · intro st hst hfalse f fs hstate
            have hstate2 : (m.state ++ [newIdx] : List SingleState) =
                f0 :: (fs0 ++ [newIdx]) := by
              rw [hms]
              rfl
            have : f = f0 := by
              rw [hstate2] at hstate
              injection hstate with h1 _
              exact h1.symm
            rw [this, hfp']

theorem reach_inv {m : MemoryState} (h : Reachable m) :
    TagsOk m ∧ FirstFullOk m := by
  induction h with
  | init =>
    constructor
    · intro p hp
      simp [emptyState] at hp
    · intro st hst hfalse f fs hstate
      simp [emptyState] at hst
  | add_key hr hk ih => exact add_key_inv hk ih.1 ih.2
  | @proc m0 recs ts ptag hr ih =>
    have hp := process_records_pres m0 recs ts ptag
    exact ⟨tagsOk_of_pres hp.1 hp.2 ih.1, firstFullOk_of_pres hp.2 ih.2⟩
  | @mark_filled m0 m1 k t hr hk ih =>
    have hp := mark_filled_pres m0 m1 k t hk
    exact ⟨tagsOk_of_pres hp.1 hp.2 ih.1, firstFullOk_of_pres hp.2 ih.2⟩
  | @mark_hole m0 m1 k t hr hk ih =>
    have hp := mark_hole_pres m0 m1 k t hk
    exact ⟨tagsOk_of_pres hp.1 hp.2 ih.1, firstFullOk_of_pres hp.2 ih.2⟩
  | @evict_keys m0 t ks hr ih =>
    have hp := evict_keys_pres m0 t ks
    exact ⟨tagsOk_of_pres hp.1 hp.2 ih.1, firstFullOk_of_pres hp.2 ih.2⟩
  | @evict_random m0 count rngIdx hr ih =>
    have hp := evict_random_pres m0 count rngIdx
    exact ⟨tagsOk_of_pres hp.1 hp.2 ih.1, firstFullOk_of_pres hp.2 ih.2⟩
  | @clear m0 hr ih =>
    have hp := clear_pres m0
    exact ⟨tagsOk_of_pres hp.1 hp.2 ih.1, firstFullOk_of_pres hp.2 ih.2⟩

theorem byTagGet_mem {m : MemoryState} {t : Tag} {i : Nat}
    (h : byTagGet m t = some i) : ∃ p ∈ m.by_tag, p.2 = i := by
  rw [byTagGet] at h
  cases hf : m.by_tag.find? (fun p => p.1 == t) with
  | none => rw [hf] at h; simp at h
  | some p =>
    rw [hf] at h
    simp at h
    exact ⟨p, List.mem_of_find?_eq_some hf, h⟩

/-- Claim C10: in every store reachable through the public operations, every
registered tag points strictly below the number of indices, so every tagged
operation that finds its tag resolves to an existing index. -/
theorem claim10_tags_in_bounds (m : MemoryState) (h : Reachable m) :
    ∀ t i, byTagGet m t = some i → i < m.state.length := by
  intro t i hti
  obtain ⟨p, hp, hpi⟩ := byTagGet_mem hti
  rw [← hpi]
  exact (reach_inv h).1 p hp

theorem claim10_witness :
    byTagGet witC10 7 = some 0 ∧ (0 : Nat) < witC10.state.length :=
  ⟨by decide,
   claim10_tags_in_bounds witC10
     (@Reachable.add_key emptyState witC10 [0] (some [7])
       Reachable.init (by decide)) 7 0 (by decide)⟩

/-- Claim C7: on every reachable store that contains at least one fully
materialized index, `add_key` with no replay tags succeeds (for any column
set), eagerly backfilling when the key-column set is new; and whenever such
an `add_key` fails, the store has no fully materialized index at all to
backfill from. -/
theorem claim7_addkey_full_source (m : MemoryState) (h : Reachable m) :
    (∀ cols st, st ∈ m.state → st.isPart = false →
      (m.add_key cols none).isSome = true) ∧
    (∀ cols, m.add_key cols none = none →
      ∀ st ∈ m.state, st.isPart = true) := by
  have hinv := (reach_inv h).2
  have main : ∀ cols st, st ∈ m.state → st.isPart = false →
      (m.add_key cols none).isSome = true := by
    intro cols st hst hfull
    cases hsf : m.state_for cols with
    | some i =>
      have key : m.add_key cols none = some { m with by_tag := m.by_tag } := by
        simp [MemoryState.add_key, hsf]
      rw [key]
      rfl
    | none =>
      cases hms : m.state with
      | nil => rw [hms] at hst; simp at hst
      | cons f fs =>
        have hffull : f.isPart = false := by
          rw [hms] at hst
          exact hinv st (by rw [hms]; exact hst) hfull f fs hms
        set newIdx := f.entries.foldl
          (fun acc e => (e.versions.drop 1).foldl
            (fun a v => a.insert_row_with_header v.2 v.1) acc)
          (SingleState.new cols false) with hNdef
        have key : m.add_key cols none = some { m with
            state := m.state ++ [newIdx] } := by
          simp only [MemoryState.add_key, hsf, hms, Option.getD_none,
            List.foldl_nil]
          rw [hffull, if_neg Bool.false_ne_true, ← hms, ← hNdef]
        rw [key]
        rfl
  refine ⟨main, ?_⟩
  intro cols hnone st hst
  cases hstp : st.isPart with
  | true => rfl
  | false =>
    have := main cols st hst hstp
    rw [hnone] at this
    simp at this

theorem claim7_witness :
    (SingleState.new [0] false) ∈ witC7.state ∧
      (SingleState.new [0] false).isPart = false ∧
      (witC7.add_key [1] none).isSome = true :=
  ⟨by decide, rfl,
   (claim7_addkey_full_source witC7
       (@Reachable.add_key emptyState witC7 [0] none
         Reachable.init (by decide))).1 [1]
     (SingleState.new [0] false) (by decide) rfl⟩

theorem claim5_witness :
    ((wit5.evict_keys 5 [[1]]).2.isSome = true ∧
      (wit5.evict_keys 5 [[1]]).1.mem_size = 0) ∧
    ((wit5.evict_random_keys 4 0).2.isSome = true ∧
      (wit5.evict_random_keys 4 0).1.mem_size = 0) := by
  have h1 := claim5_evict_saturates.1 wit5 5 [[1]] 0 wSt5 (by decide) (by decide)
  have h2 := claim5_evict_saturates.2 wit5 4 0 wSt5 (by decide)
  exact ⟨⟨h1.1, h1.2.2 (by decide)⟩, ⟨h2.1, h2.2.2 (by decide)⟩⟩

end Noria
